import Mathlib

/-!
Verification of the hierarchical multi-facet filter and incremental search
engine of the robocoin-visualizer repository
(`docs/js/modules/filter-manager.js`, class `FilterManager`).

JS strings are modelled as `List Char`, JS `Set`/`Map` (insertion-ordered,
unique keys) as association lists with JS `Set.add` / `Map.set` semantics,
and the browser timers as explicit `Option` handles in a state record.
DOM reads and writes (class toggling, tag rendering, scrolling) are outside
the model; only the logical state they mirror is kept.
-/

namespace RoboVis

/-- A JS string, as its sequence of characters. -/
abbrev Str := List Char

/-- JS `Array.prototype.includes` / membership test used throughout
`filter-manager.js` (`values.includes(v)`, `set.has(x)` and so on). -/
def includes (l : List Str) (x : Str) : Bool :=
  decide (x ∈ l)

/-- JS `String.prototype.split` with a one-character separator:
`"a:b".split(':') = ["a","b"]`, `"".split(':') = [""]`,
`":".split(':') = ["",""]`. The result is always non-empty. -/
def splitOnChar (c : Char) : Str → List Str
  | [] => [[]]
  | x :: xs =>
    let r := splitOnChar c xs
    if x = c then [] :: r
    else (x :: r.headD []) :: r.tail

/-- FilterId construction used by `toggleFilterSelection` and every
bulk-select path: the template literal `` `${filterKey}:${filterValue}` ``. -/
def mkFilterId (key value : Str) : Str :=
  key ++ ':' :: value

/-- FilterId deconstruction used by `applyFilters` (and `clearGroup`,
`renderFilterTags`): `const [key, value] = filterId.split(':')`. JS takes
the first two fragments of the split; when the id holds no colon the JS
`value` is `undefined`, which we render as the empty string (constructed
FilterIds always contain a colon). -/
def parseFilterId (fid : Str) : Str × Str :=
  let parts := splitOnChar ':' fid
  (parts.headD [], parts.tail.headD [])

/-- JS `String.prototype.toLowerCase`. -/
def toLowerStr (s : Str) : Str :=
  s.map Char.toLower

/-- Whether the second string is a prefix of the first. -/
def startsWithStr : Str → Str → Bool
  | _, [] => true
  | [], _ :: _ => false
  | x :: xs, y :: ys => x = y && startsWithStr xs ys

/-- JS `String.prototype.includes`: contiguous substring occurrence. -/
def strIncludes : Str → Str → Bool
  | [], needle => needle.isEmpty
  | x :: t, needle => startsWithStr (x :: t) needle || strIncludes t needle

/-- A dataset record, with exactly the fields `applyFilters` and
`calculateAffectedCount` read. JS allows `scenes`/`actions`/`objects` to be
absent and `robot` to be a single string; an absent field never matches,
exactly like the empty list, and a single robot string behaves as the
one-element array `[ds.robot]`, so lists model all of these faithfully.
`objects` keeps each object's `hierarchy` path. -/
structure Dataset where
  path : Str
  name : Str
  scenes : List Str
  robot : List Str
  endEffector : Str
  actions : List Str
  objects : List (List Str)
deriving DecidableEq, Repr

/-- The per-key match test inside the `for (const [key, values] of
Object.entries(filters))` loop of `applyFilters`: `match` for one facet
key against the selected `values` of that key. An unrecognised key leaves
`match = false`, rejecting the record. -/
def matchKey (ds : Dataset) (key : Str) (values : List Str) : Bool :=
  if key = "scene".data then ds.scenes.any (fun v => includes values v)
  else if key = "robot".data then ds.robot.any (fun r => includes values r)
  else if key = "end".data then includes values ds.endEffector
  else if key = "action".data then ds.actions.any (fun a => includes values a)
  else if key = "object".data then
    ds.objects.any (fun obj => obj.any (fun h => includes values h))
  else false

/-- A node of the hierarchical `object` facet tree: the JS object
`{ children: Map, isLeaf: bool }` built by `addToHierarchy`. The `Map`
keyed by segment value, insertion-ordered with unique keys, is an
association list. -/
inductive HNode where
  | mk (children : List (Str × HNode)) (leafFlag : Bool)

/-- The `children` map of a node. -/
def HNode.children : HNode → List (Str × HNode)
  | .mk c _ => c

/-- The `isLeaf` flag of a node. -/
def HNode.isLeaf : HNode → Bool
  | .mk _ l => l

/-- JS `Map.prototype.get`, returning the value bound to the first (and
only) occurrence of the key. -/
def mapGet (m : List (Str × HNode)) (k : Str) : Option HNode :=
  match m with
  | [] => none
  | (k', n) :: rest => if k' = k then some n else mapGet rest k

/-- JS `Map.prototype.has`. -/
def mapHas (m : List (Str × HNode)) (k : Str) : Bool :=
  (mapGet m k).isSome

/-- JS `Map.prototype.set`: replace in place when the key exists, else
append at the end (JS Maps keep insertion order). -/
def mapSet (m : List (Str × HNode)) (k : Str) (n : HNode) : List (Str × HNode) :=
  match m with
  | [] => [(k, n)]
  | (k', n') :: rest => if k' = k then (k', n) :: rest else (k', n') :: mapSet rest k n

/-- `addToHierarchy(hierarchyMap, levels)`: walk `levels` from the root;
when a segment is absent create `{ children: new Map(), isLeaf: idx ===
levels.length - 1 }`, then descend into that segment's `children`. Note
that an already-existing node keeps its `isLeaf` flag untouched: the JS
code only assigns `isLeaf` inside the `if (!current.has(level))` branch.
An empty `levels` list returns the map unchanged (the early return). -/
def addToHierarchy (m : List (Str × HNode)) : List Str → List (Str × HNode)
  | [] => m
  | level :: rest =>
    match mapGet m level with
    | some n => mapSet m level (HNode.mk (addToHierarchy n.children rest) n.isLeaf)
    | none => mapSet m level (HNode.mk (addToHierarchy [] rest) rest.isEmpty)

/-- The hierarchical `object` group built by `buildFilterGroups`: every
record's every `hierarchy` path threaded into one shared tree, in record
order, starting from an empty map. -/
def buildObjectHierarchy (paths : List (List Str)) : List (Str × HNode) :=
  paths.foldl addToHierarchy []

/-- JS `Array.prototype.indexOf`: the index of the first occurrence, `-1`
when absent. -/
def jsIndexOf (x : Str) : List Str → Int
  | [] => -1
  | y :: ys =>
    if y = x then 0
    else
      let r := jsIndexOf x ys
      if r < 0 then -1 else r + 1

/-- The `for (const part of parts)` loop of `findHierarchyNode`. The
last-segment test is the source's `parts.indexOf(part) === parts.length -
1`, which looks up the FIRST occurrence of the segment's value in the
whole `parts` array rather than the loop position. -/
def findLoop (parts : List Str) : List (Str × HNode) → List Str → Option HNode
  | _, [] => none
  | m, part :: rest =>
    match mapGet m part with
    | none => none
    | some node =>
      if jsIndexOf part parts = (parts.length : Int) - 1 then some node
      else findLoop parts node.children rest

/-- `findHierarchyNode(hierarchyMap, path)`: split the `>`-joined path and
run the loop; falls through to `null` when the loop never early-returns. -/
def findHierarchyNode (m : List (Str × HNode)) (path : Str) : Option HNode :=
  let parts := splitOnChar '>' path
  findLoop parts m parts

/-- JS `Set` membership plus `add`: `selectedFilters.add(x)` appends a new
element, keeps the set unchanged when already present. -/
def jsSetAdd (s : List Str) (x : Str) : List Str :=
  if includes s x then s else s ++ [x]

/-- JS `Set.prototype.delete`: remove the (unique) occurrence. -/
def jsSetDelete (s : List Str) (x : Str) : List Str :=
  s.filter (fun y => y ≠ x)

/-- `selectLeafNodesRecursive(groupKey, hierarchyMap, parentPath)` acting
on the `selectedFilters` set (the DOM class/tag mirroring is dropped). A
node passes the leaf test `node.isLeaf || node.children.size === 0`; its
FilterId uses the BARE value, not the full path. `fullPath` is only
threaded into the recursion, as in the source. -/
def selectLeafNodesRecursive (groupKey : Str) :
    List (Str × HNode) → Str → List Str → List Str
  | [], _, selected => selected
  | (value, .mk ch lf) :: rest, parentPath, selected =>
    let fullPath := if parentPath.isEmpty then value else parentPath ++ '>' :: value
    let selected₁ :=
      if lf || ch.isEmpty then jsSetAdd selected (mkFilterId groupKey value)
      else selected
    let selected₂ :=
      if ch.isEmpty then selected₁
      else selectLeafNodesRecursive groupKey ch fullPath selected₁
    selectLeafNodesRecursive groupKey rest parentPath selected₂

/-- `clearLeafNodesRecursive`, the deleting twin of
`selectLeafNodesRecursive` with the same leaf test. -/
def clearLeafNodesRecursive (groupKey : Str) :
    List (Str × HNode) → Str → List Str → List Str
  | [], _, selected => selected
  | (value, .mk ch lf) :: rest, parentPath, selected =>
    let fullPath := if parentPath.isEmpty then value else parentPath ++ '>' :: value
    let selected₁ :=
      if lf || ch.isEmpty then jsSetDelete selected (mkFilterId groupKey value)
      else selected
    let selected₂ :=
      if ch.isEmpty then selected₁
      else clearLeafNodesRecursive groupKey ch fullPath selected₁
    clearLeafNodesRecursive groupKey rest parentPath selected₂

/-- `selectAllInHierarchy(groupKey, hierarchyMap, parentPath)`: used by
`selectAllInGroup` for the hierarchical group; the leaf test here is the
plain `node.isLeaf`. -/
def selectAllInHierarchy (groupKey : Str) :
    List (Str × HNode) → Str → List Str → List Str
  | [], _, selected => selected
  | (value, .mk ch lf) :: rest, parentPath, selected =>
    let fullPath := if parentPath.isEmpty then value else parentPath ++ '>' :: value
    let selected₁ :=
      if lf then jsSetAdd selected (mkFilterId groupKey value)
      else selected
    let selected₂ :=
      if ch.isEmpty then selected₁
      else selectAllInHierarchy groupKey ch fullPath selected₁
    selectAllInHierarchy groupKey rest parentPath selected₂

/-- `selectAllChildrenInHierarchy(groupKey, path)` on the hierarchical
group's map: resolve the path with `findHierarchyNode`; on `null` return
with the selection untouched, otherwise select the leaf nodes under the
resolved node's children. -/
def selectAllChildrenInHierarchy (groupKey : Str) (m : List (Str × HNode))
    (path : Str) (selected : List Str) : List Str :=
  match findHierarchyNode m path with
  | none => selected
  | some node => selectLeafNodesRecursive groupKey node.children path selected

/-- `clearAllChildrenInHierarchy(groupKey, path)`, the clearing twin. -/
def clearAllChildrenInHierarchy (groupKey : Str) (m : List (Str × HNode))
    (path : Str) (selected : List Str) : List Str :=
  match findHierarchyNode m path with
  | none => selected
  | some node => clearLeafNodesRecursive groupKey node.children path selected

/-- One step of the `filters` collection loop in `applyFilters`:
`if (!filters[key]) filters[key] = []; filters[key].push(value)` over an
object whose keys keep first-occurrence order. -/
def pushFilter : List (Str × List Str) → Str → Str → List (Str × List Str)
  | [], k, v => [(k, [v])]
  | (k', vs) :: rest, k, v =>
    if k' = k then (k', vs ++ [v]) :: rest else (k', vs) :: pushFilter rest k v

/-- The `filters` object of `applyFilters`: every selected FilterId split
at `':'` and grouped by its first fragment, values in selection-iteration
order. -/
def collectFilters (selected : List Str) : List (Str × List Str) :=
  selected.foldl (fun acc fid => pushFilter acc (parseFilterId fid).1 (parseFilterId fid).2) []

/-- `applyFilters(searchQuery)`: keep the datasets, in order, that pass
the (case-insensitive substring) text query when it is non-empty, and
match every facet-key group of the collected filters. -/
def applyFilters (datasets : List Dataset) (selected : List Str)
    (searchQuery : Str) : List Dataset :=
  let filters := collectFilters selected
  datasets.filter fun ds =>
    if !searchQuery.isEmpty && !(strIncludes (toLowerStr ds.name) (toLowerStr searchQuery)) then
      false
    else
      filters.all fun g => matchKey ds g.1 g.2

/-- The single-value match test of `calculateAffectedCount(filterKey,
filterValue)`: whether one dataset satisfies one facet value in isolation.
Branch for branch the same field semantics as `matchKey` with a
one-element selection. -/
def matchesValue (ds : Dataset) (key v : Str) : Bool :=
  if key = "scene".data then includes ds.scenes v
  else if key = "robot".data then includes ds.robot v
  else if key = "end".data then ds.endEffector = v
  else if key = "action".data then includes ds.actions v
  else if key = "object".data then ds.objects.any (fun obj => includes obj v)
  else false

/-- The flat facet groups plus the hierarchical `object` group built by
`buildFilterGroups` (keys `scene`, `robot`, `end`, `action`, `object`). -/
structure FilterGroups where
  sceneVals : List Str
  robotVals : List Str
  endVals : List Str
  actionVals : List Str
  objectTree : List (Str × HNode)

/-- The `FilterManager` fields the selection, filtering and counting
operations read or write. -/
structure FMState where
  datasets : List Dataset
  filterGroups : FilterGroups
  selectedFilters : List Str

/-- `calculateAffectedCount(filterKey, filterValue)`: the number of
datasets matching that single value; it iterates `this.datasets` only and
never consults `selectedFilters`. -/
def calculateAffectedCount (st : FMState) (filterKey filterValue : Str) : Nat :=
  st.datasets.countP (fun ds => matchesValue ds filterKey filterValue)

/-- `toggleFilterSelection(filterKey, filterValue)` on the selection set:
delete the FilterId when present, add it when absent. The JS method has no
`return` statement, so its call value is `undefined`; the second component
records that returned value (`none`). -/
def toggleFilterSelection (selected : List Str) (filterKey filterValue : Str) :
    List Str × Option Bool :=
  let filterId := mkFilterId filterKey filterValue
  if includes selected filterId then (jsSetDelete selected filterId, none)
  else (selected ++ [filterId], none)

/-- The flat branch of `selectAllInGroup`: add every value of the group
(each checked against the current set first). -/
def flatSelectAll (groupKey : Str) (values : List Str) (selected : List Str) : List Str :=
  values.foldl (fun s v => jsSetAdd s (mkFilterId groupKey v)) selected

/-- `selectAllInGroup(groupKey)`: look the group up by key; flat groups
add every value, the hierarchical group runs `selectAllInHierarchy`; an
unknown key is a no-op. Only `selectedFilters` changes. -/
def selectAllInGroup (st : FMState) (groupKey : Str) : FMState :=
  if groupKey = "scene".data then
    { st with selectedFilters := flatSelectAll groupKey st.filterGroups.sceneVals st.selectedFilters }
  else if groupKey = "robot".data then
    { st with selectedFilters := flatSelectAll groupKey st.filterGroups.robotVals st.selectedFilters }
  else if groupKey = "end".data then
    { st with selectedFilters := flatSelectAll groupKey st.filterGroups.endVals st.selectedFilters }
  else if groupKey = "action".data then
    { st with selectedFilters := flatSelectAll groupKey st.filterGroups.actionVals st.selectedFilters }
  else if groupKey = "object".data then
    { st with selectedFilters := selectAllInHierarchy groupKey st.filterGroups.objectTree [] st.selectedFilters }
  else st

/-- The timer-holding fields of `FilterManager`: `pendingFilterUpdate`
(the debounce armed by `scheduleFilterUpdate`) and `tooltipTimeout` (the
tooltip display delay armed by `showTooltip`), each `null` or a live
`setTimeout` handle, plus the selection the callbacks would observe. -/
structure SchedulerState where
  pendingFilterUpdate : Option Nat
  tooltipTimeout : Option Nat
  selectedFilters : List Str

/-- `scheduleFilterUpdate()`: clear any pending debounce handle and arm a
fresh one (the 150 ms quiet window restarts). -/
def scheduleFilterUpdate (st : SchedulerState) (handle : Nat) : SchedulerState :=
  { st with pendingFilterUpdate := some handle }

/-- `resetFilters()`: clear the pending debounce handle (`clearTimeout`
then `null`) and empty the selection. The method touches no other timer
field. -/
def resetFilters (st : SchedulerState) : SchedulerState :=
  { st with pendingFilterUpdate := none, selectedFilters := [] }

/-- `hideTooltip()`: clear the tooltip delay handle. -/
def hideTooltip (st : SchedulerState) : SchedulerState :=
  { st with tooltipTimeout := none }

/-- The debounce callback may run only while its `setTimeout` handle is
still armed; a cleared (`clearTimeout`-ed) handle never fires. Firing
nulls the handle, as the callback body does. -/
def fireDebounce (st : SchedulerState) : Option SchedulerState :=
  match st.pendingFilterUpdate with
  | none => none
  | some _ => some { st with pendingFilterUpdate := none }

/-- The tooltip display callback, likewise gated on its armed handle. -/
def fireTooltip (st : SchedulerState) : Option SchedulerState :=
  match st.tooltipTimeout with
  | none => none
  | some _ => some st

/-- The Filter Finder fields navigation reads: the ordered match list
(kept as the matches' label texts) and the current index, `-1` when no
match is current. -/
structure FinderState where
  filterFinderMatches : List Str
  filterFinderCurrentIndex : Int

/-- `navigateFilterMatch(direction)`: no-op on an empty match list;
otherwise `'next'` moves to `(i + 1) % n` and any other direction (the
callers pass `'prev'`) to `(i - 1 + n) % n`, with `%` the JS truncating
remainder (`Int.tmod`). -/
def navigateFilterMatch (st : FinderState) (direction : Str) : FinderState :=
  if st.filterFinderMatches.length = 0 then st
  else
    let n : Int := st.filterFinderMatches.length
    if direction = "next".data then
      { st with filterFinderCurrentIndex := (st.filterFinderCurrentIndex + 1).tmod n }
    else
      { st with filterFinderCurrentIndex := (st.filterFinderCurrentIndex - 1 + n).tmod n }

/-- Lookup in the grouped-filters object, by key. -/
def getGroup (k : Str) : List (Str × List Str) → Option (List Str)
  | [] => none
  | (k', vs) :: rest => if k' = k then some vs else getGroup k rest

/-- The values a selection contributes to one facet key: the second split
fragment of every selected FilterId whose first fragment is that key, in
selection order. -/
def groupVals (selected : List Str) (k : Str) : List Str :=
  (selected.filter (fun fid => (parseFilterId fid).1 = k)).map
    (fun fid => (parseFilterId fid).2)

/-- The keys of a grouped-filters object are pairwise distinct. -/
def keysNodup (m : List (Str × List Str)) : Prop :=
  (m.map Prod.fst).Nodup

/-- The structural invariant of hierarchy trees the builder produces:
every node whose children map is empty carries `isLeaf = true`, at every
depth. -/
inductive NodeInv : HNode → Prop where
  | mk (children : List (Str × HNode)) (lf : Bool)
      (hchild : ∀ p ∈ children, NodeInv p.2)
      (hleaf : children = [] → lf = true) :
      NodeInv (HNode.mk children lf)

/-- `NodeInv` for every node of a hierarchy map. -/
def MapInv (m : List (Str × HNode)) : Prop :=
  ∀ p ∈ m, NodeInv p.2

/-- A node occurring anywhere in a hierarchy map: directly as an entry's
node or nested in some entry's descendants. -/
inductive InTree : HNode → List (Str × HNode) → Prop where
  | here {n : HNode} {m : List (Str × HNode)} (k : Str) (h : (k, n) ∈ m) :
      InTree n m
  | deeper {n n' : HNode} {m : List (Str × HNode)} (k : Str) (h : (k, n') ∈ m)
      (hr : InTree n n'.children) : InTree n m

/-- Record A of the spec's inter-group example: scene `kitchen`, robot
`arm1`. -/
def dsA : Dataset :=
  ⟨"A".data, "A".data, ["kitchen".data], ["arm1".data], [], [], []⟩

/-- Record B of the spec's inter-group example: scene `kitchen`, robot
`arm2`. -/
def dsB : Dataset :=
  ⟨"B".data, "B".data, ["kitchen".data], ["arm2".data], [], [], []⟩

/-- The spec's hierarchy-ancestor example record, object path
`["tools","drill"]`. -/
def dsTools : Dataset :=
  ⟨"T".data, "T".data, [], [], [], [], [["tools".data, "drill".data]]⟩

/-- A tree with a repeated segment value on one path: built from the
single record path `["a","a","b"]`, giving `a > a > b(leaf)`. -/
def treeDup : List (Str × HNode) :=
  buildObjectHierarchy [[['a'], ['a'], ['b']]]

/-- A concrete manager state for witnesses: one record, empty groups and
selection except a scene value. -/
def stExample : FMState :=
  ⟨[dsA], ⟨["kitchen".data], ["arm1".data], [], [], []⟩, []⟩

/-- Claim C2: threading the record paths `["a","b"]` then `["a"]` must
leave the node at segment `a` flagged `isLeaf = true` (it terminates the
second record's path). The builder leaves it `false`, because
`addToHierarchy` assigns `isLeaf` only when it creates a node; processing
the same two paths in the opposite order yields `true`. -/
theorem addToHierarchy_short_after_long_not_leaf :
    (mapGet (buildObjectHierarchy [[['a'], ['b']], [['a']]]) ['a']).map HNode.isLeaf
        = some false ∧
    (mapGet (buildObjectHierarchy [[['a']], [['a'], ['b']]]) ['a']).map HNode.isLeaf
        = some true := by
  decide

/-- Claim C3: in the tree built from the path `["a","a","b"]` every
segment of the query path `a>a` is present when walking from the root
(shown by the two `mapHas` conjuncts), yet `findHierarchyNode` returns
`null` — its last-segment test `parts.indexOf(part) === parts.length - 1`
compares the FIRST occurrence of the repeated value — so both
`selectAllChildrenInHierarchy` and `clearAllChildrenInHierarchy` are
no-ops instead of touching the leaf `b` below `a>a`. -/
theorem findHierarchyNode_repeated_segment_noop :
    mapHas treeDup ['a'] = true ∧
    (mapGet treeDup ['a']).map (fun n => mapHas n.children ['a']) = some true ∧
    (findHierarchyNode treeDup ['a', '>', 'a']).isSome = false ∧
    selectAllChildrenInHierarchy "object".data treeDup ['a', '>', 'a'] [] = [] ∧
    clearAllChildrenInHierarchy "object".data treeDup ['a', '>', 'a']
        [mkFilterId "object".data ['b']] = [mkFilterId "object".data ['b']] := by
  decide

/-- Claim C5 counterexample: `toggleFilterSelection` has no `return`
statement, so adding `scene:kitchen` to an empty selection returns
`undefined` (`none`), not the new membership of the FilterId (which is
`true`). -/
theorem toggleFilterSelection_returns_undefined :
    (toggleFilterSelection [] "scene".data "kitchen".data).2 ≠
      some (includes (toggleFilterSelection [] "scene".data "kitchen".data).1
        (mkFilterId "scene".data "kitchen".data)) := by
  decide

/-- Claim C5 (amended): the toggle flips membership of the FilterId
`"{facetKey}:{facetValue}"` in the selection set, but returns no value
(`undefined`); the new membership is observable only on the set itself. -/
theorem toggleFilterSelection_flips_membership (selected : List Str) (k v : Str) :
    (mkFilterId k v ∈ (toggleFilterSelection selected k v).1 ↔
      mkFilterId k v ∉ selected) ∧
    (toggleFilterSelection selected k v).2 = none := by
  unfold toggleFilterSelection
  by_cases h : mkFilterId k v ∈ selected <;>
    simp [includes, h, jsSetDelete]

/-- Claim C6: `calculateAffectedCount` iterates the record collection
only, so `count(key, value)` is identical before and after
`selectAllInGroup` runs for an unrelated group. -/
theorem calculateAffectedCount_selectAll_invariant (st : FMState)
    (groupKey k v : Str) ( _h : groupKey ≠ k) :
    calculateAffectedCount (selectAllInGroup st groupKey) k v =
      calculateAffectedCount st k v := by
  have hds : (selectAllInGroup st groupKey).datasets = st.datasets := by
    unfold selectAllInGroup
    split_ifs <;> rfl
  simp [calculateAffectedCount, hds]

/-- Claim C6 witness at a concrete state: selecting all robots leaves the
scene count unchanged. -/
theorem calculateAffectedCount_selectAll_invariant_witness :
    calculateAffectedCount (selectAllInGroup stExample "robot".data)
        "scene".data "kitchen".data =
      calculateAffectedCount stExample "scene".data "kitchen".data :=
  calculateAffectedCount_selectAll_invariant stExample "robot".data
    "scene".data "kitchen".data (by decide)

/-- Claim C8 counterexample: with both timers armed, `resetFilters` leaves
`tooltipTimeout` armed (the tooltip can still fire); only
`pendingFilterUpdate` is cleared, so the claim that reset cancels every
pending timer is false. -/
theorem resetFilters_leaves_tooltip_timer :
    (resetFilters ⟨some 1, some 2, []⟩).tooltipTimeout ≠ none ∧
    (fireTooltip (resetFilters ⟨some 1, some 2, []⟩)).isSome = true := by
  constructor
  · decide
  · rfl

/-- Claim C8 (amended): `resetFilters` synchronously cancels a pending
debounced filters-changed notification — the cancelled debounce can never
fire — but does not touch the tooltip-display timer, which only
`hideTooltip` cancels. -/
theorem resetFilters_cancels_debounce (st : SchedulerState) :
    (resetFilters st).pendingFilterUpdate = none ∧
    fireDebounce (resetFilters st) = none ∧
    (resetFilters st).tooltipTimeout = st.tooltipTimeout ∧
    (hideTooltip st).tooltipTimeout = none := by
  exact ⟨rfl, rfl, rfl, rfl⟩

/-- Claim C7: on a non-empty match list of length `n` with current index
`0 ≤ i < n`, `navigate('next')` sets the index to `(i + 1) % n` and
`navigate('prev')` to `(i - 1 + n) % n`; on an empty match list navigation
leaves the state unchanged. -/
theorem navigateFilterMatch_wraparound (st : FinderState) :
    (st.filterFinderMatches = [] → ∀ d, navigateFilterMatch st d = st) ∧
    (0 ≤ st.filterFinderCurrentIndex →
      st.filterFinderCurrentIndex < (st.filterFinderMatches.length : Int) →
      (navigateFilterMatch st "next".data).filterFinderCurrentIndex =
        (st.filterFinderCurrentIndex + 1) % (st.filterFinderMatches.length : Int) ∧
      (navigateFilterMatch st "prev".data).filterFinderCurrentIndex =
        (st.filterFinderCurrentIndex - 1 + st.filterFinderMatches.length) %
          (st.filterFinderMatches.length : Int)) := by
  constructor
  · intro h d
    simp [navigateFilterMatch, h]
  · intro h1 h2
    have hn : ¬ st.filterFinderMatches.length = 0 := by
      intro h0
      rw [h0] at h2
      omega
    have hnpos : (0 : Int) < st.filterFinderMatches.length := by
      omega
    constructor
    · simp only [navigateFilterMatch, if_neg hn, if_pos rfl]
      exact Int.tmod_eq_emod (by omega) (by omega)
    · have hd : ¬ ("prev".data = "next".data) := by decide
      simp only [navigateFilterMatch, if_neg hn, if_neg hd]
      exact Int.tmod_eq_emod (by omega) (by omega)

/-- Claim C7 witness: with three matches and current index 0, `prev`
lands on index 2 and `next` on index 1. -/
theorem navigateFilterMatch_wraparound_witness :
    (navigateFilterMatch ⟨["x".data, "y".data, "z".data], 0⟩ "prev".data).filterFinderCurrentIndex = 2 ∧
    (navigateFilterMatch ⟨["x".data, "y".data, "z".data], 0⟩ "next".data).filterFinderCurrentIndex = 1 := by
  have h := (navigateFilterMatch_wraparound ⟨["x".data, "y".data, "z".data], 0⟩).2
    (by decide) (by decide)
  exact ⟨h.2.trans (by decide), h.1.trans (by decide)⟩

/-- Splitting at the separator just after a separator-free chunk yields
that chunk followed by the split of the remainder. -/
theorem splitOnChar_sep_append (c : Char) (k v : Str) (hk : c ∉ k) :
    splitOnChar c (k ++ c :: v) = k :: splitOnChar c v := by
  induction k with
  | nil => simp [splitOnChar]
  | cons x xs ih =>
    rw [List.mem_cons] at hk
    push_neg at hk
    obtain ⟨hk1, hk2⟩ := hk
    simp [splitOnChar, ih hk2, Ne.symm hk1]

/-- The first fragment of a split is the longest separator-free initial
run. -/
theorem splitOnChar_headD (c : Char) (v : Str) :
    (splitOnChar c v).headD [] = v.takeWhile (fun x => x != c) := by
  induction v with
  | nil => rfl
  | cons y ys ih =>
    by_cases hy : y = c
    · subst hy
      simp [splitOnChar, List.takeWhile_cons]
    · simpa [splitOnChar, List.takeWhile_cons, hy] using ih

/-- Claim C10: splitting `"{facetKey}:{facetValue}"` at `':'` and keeping
the first two fragments recovers the key, and recovers the value exactly
when the value holds no colon; a value with a colon is truncated to its
run before the first colon, so matching uses the wrong value. -/
theorem parseFilterId_inverts_mkFilterId (k v : Str) (hk : ':' ∉ k) :
    parseFilterId (mkFilterId k v) = (k, v.takeWhile (fun x => x != ':')) ∧
    (parseFilterId (mkFilterId k v) = (k, v) ↔ ':' ∉ v) := by
  have h1 : parseFilterId (mkFilterId k v) =
      (k, v.takeWhile (fun x => x != ':')) := by
    unfold parseFilterId mkFilterId
    rw [splitOnChar_sep_append ':' k v hk]
    exact congrArg (Prod.mk k) (splitOnChar_headD ':' v)
  refine ⟨h1, ?_⟩
  rw [h1]
  simp only [Prod.mk.injEq, true_and]
  rw [List.takeWhile_eq_self_iff]
  constructor
  · intro h hmem
    have := h ':' hmem
    simp at this
  · intro h x hx
    simp only [bne_iff_ne, ne_eq]
    intro hxc
    exact h (hxc ▸ hx)

/-- Claim C10 witness: `object:a:b` parses back to key `object` and the
truncated value `a`. -/
theorem parseFilterId_inverts_mkFilterId_witness :
    parseFilterId (mkFilterId "object".data "a:b".data) = ("object".data, "a".data) :=
  ((parseFilterId_inverts_mkFilterId "object".data "a:b".data (by decide)).1).trans
    (by decide)

/-- Claim C4: a record satisfies the `object` key-group exactly when some
segment of some of its hierarchy paths — at any depth — equals a selected
value; in particular the record with path `["tools","drill"]` passes
`applyFilters` under the selection `object:tools` as well as under
`object:drill`. -/
theorem applyFilters_hierarchy_ancestor_match :
    (∀ (ds : Dataset) (values : List Str),
      matchKey ds "object".data values = true ↔
        ∃ p ∈ ds.objects, ∃ seg ∈ p, seg ∈ values) ∧
    applyFilters [dsTools] [mkFilterId "object".data "tools".data] [] = [dsTools] ∧
    applyFilters [dsTools] [mkFilterId "object".data "drill".data] [] = [dsTools] := by
  refine ⟨?_, by decide, by decide⟩
  intro ds values
  unfold matchKey
  rw [if_neg (by decide), if_neg (by decide), if_neg (by decide), if_neg (by decide),
    if_pos rfl]
  simp [includes, List.any_eq_true]

/-- The per-key loop test is the disjunction, over the group's selected
values, of the single-value match. -/
theorem matchKey_any_matchesValue (ds : Dataset) (k : Str) (vs : List Str) :
    matchKey ds k vs = true ↔ ∃ v ∈ vs, matchesValue ds k v = true := by
  unfold matchKey matchesValue
  split_ifs <;> simp [includes, List.any_eq_true] <;> tauto

/-- `getGroup` after a `pushFilter` step. -/
theorem getGroup_pushFilter (m : List (Str × List Str)) (k v k₀ : Str) :
    getGroup k₀ (pushFilter m k v) =
      if k₀ = k then some ((getGroup k m).getD [] ++ [v]) else getGroup k₀ m := by
  induction m with
  | nil =>
    by_cases h : k₀ = k
    · subst h
      simp [pushFilter, getGroup]
    · have h2 : ¬ k = k₀ := fun hh => h hh.symm
      simp [pushFilter, getGroup, h, h2]
  | cons hd tl ih =>
    obtain ⟨k', vs⟩ := hd
    by_cases h1 : k' = k
    · subst h1
      by_cases h2 : k₀ = k'
      · subst h2
        simp [pushFilter, getGroup]
      · have h3 : ¬ k' = k₀ := fun hh => h2 hh.symm
        simp [pushFilter, getGroup, h2, h3]
    · by_cases h2 : k' = k₀
      · subst h2
        simp [pushFilter, getGroup, h1]
      · simp [pushFilter, getGroup, h1, h2, ih]

/-- `groupVals` over a selection with one more FilterId in front. -/
theorem groupVals_cons (fid : Str) (sel : List Str) (k : Str) :
    groupVals (fid :: sel) k =
      if (parseFilterId fid).1 = k then (parseFilterId fid).2 :: groupVals sel k
      else groupVals sel k := by
  unfold groupVals
  by_cases h : (parseFilterId fid).1 = k <;> simp [List.filter_cons, h]

/-- The filters-object fold, characterised group by group. -/
theorem getGroup_foldl_pushFilter (sel : List Str) :
    ∀ (acc : List (Str × List Str)) (k : Str),
      getGroup k (sel.foldl
          (fun acc fid => pushFilter acc (parseFilterId fid).1 (parseFilterId fid).2) acc) =
        if (getGroup k acc).isSome ∨ groupVals sel k ≠ [] then
          some ((getGroup k acc).getD [] ++ groupVals sel k)
        else none := by
  induction sel with
  | nil =>
    intro acc k
    have : groupVals [] k = [] := rfl
    rw [List.foldl_nil, this]
    cases h : getGroup k acc <;> simp [h]
  | cons fid rest ih =>
    intro acc k
    rw [List.foldl_cons, ih, groupVals_cons, getGroup_pushFilter]
    by_cases hk : (parseFilterId fid).1 = k
    · subst hk
      cases h : getGroup (parseFilterId fid).1 acc <;>
        simp [h, List.append_assoc]
    · have hk2 : ¬ k = (parseFilterId fid).1 := fun hh => hk hh.symm
      rw [if_neg hk2, if_neg hk]

/-- `getGroup` over the collected filters of a selection. -/
theorem getGroup_collectFilters (sel : List Str) (k : Str) :
    getGroup k (collectFilters sel) =
      if groupVals sel k = [] then none else some (groupVals sel k) := by
  unfold collectFilters
  rw [getGroup_foldl_pushFilter]
  by_cases h : groupVals sel k = [] <;> simp [getGroup, h]

/-- The keys of the filters object after a `pushFilter` step. -/
theorem pushFilter_keys (m : List (Str × List Str)) (k v : Str) :
    (pushFilter m k v).map Prod.fst =
      if k ∈ m.map Prod.fst then m.map Prod.fst else m.map Prod.fst ++ [k] := by
  induction m with
  | nil => simp [pushFilter]
  | cons hd tl ih =>
    obtain ⟨k', vs⟩ := hd
    by_cases h : k' = k
    · subst h
      simp [pushFilter]
    · have h2 : ¬ k = k' := fun hh => h hh.symm
      by_cases hm : k ∈ tl.map Prod.fst <;>
        simp [pushFilter, h, h2, hm, ih]

/-- `pushFilter` keeps the filters object's keys pairwise distinct. -/
theorem pushFilter_keysNodup (m : List (Str × List Str)) (k v : Str)
    (h : keysNodup m) : keysNodup (pushFilter m k v) := by
  unfold keysNodup at *
  rw [pushFilter_keys]
  by_cases hm : k ∈ m.map Prod.fst
  · simpa [hm] using h
  · simp [hm, List.nodup_append, h]

/-- The collected filters object has pairwise distinct keys. -/
theorem collectFilters_keysNodup (sel : List Str) : keysNodup (collectFilters sel) := by
  unfold collectFilters
  have aux : ∀ (l : List Str) (acc : List (Str × List Str)), keysNodup acc →
      keysNodup (l.foldl
        (fun acc fid => pushFilter acc (parseFilterId fid).1 (parseFilterId fid).2) acc) := by
    intro l
    induction l with
    | nil => intro acc h; exact h
    | cons fid rest ih =>
      intro acc h
      rw [List.foldl_cons]
      exact ih _ (pushFilter_keysNodup _ _ _ h)
  exact aux sel [] (by simp [keysNodup])

/-- A successful `getGroup` lookup comes from a member entry. -/
theorem mem_of_getGroup (m : List (Str × List Str)) (k : Str) (vs : List Str)
    (h : getGroup k m = some vs) : (k, vs) ∈ m := by
  induction m with
  | nil => simp [getGroup] at h
  | cons hd tl ih =>
    obtain ⟨k', vs'⟩ := hd
    by_cases hk : k' = k
    · subst hk
      simp [getGroup] at h
      subst h
      exact List.mem_cons_self _ _
    · rw [getGroup, if_neg hk] at h
      exact List.mem_cons_of_mem _ (ih h)

/-- With distinct keys, every member entry is what `getGroup` returns for
its key. -/
theorem getGroup_of_mem_nodup (m : List (Str × List Str)) (h : keysNodup m)
    (g : Str × List Str) (hg : g ∈ m) : getGroup g.1 m = some g.2 := by
  induction m with
  | nil => simp at hg
  | cons hd tl ih =>
    obtain ⟨k', vs'⟩ := hd
    rcases List.mem_cons.mp hg with hg1 | hg2
    · subst hg1
      simp [getGroup]
    · unfold keysNodup at h
      rw [List.map_cons, List.nodup_cons] at h
      have hne : k' ≠ g.1 := by
        intro hh
        have hmem : g.1 ∈ tl.map Prod.fst := List.mem_map_of_mem Prod.fst hg2
        rw [← hh] at hmem
        exact h.1 hmem
      rw [getGroup, if_neg hne]
      exact ih h.2 hg2

/-- A facet key has a non-empty value group exactly when some selected
FilterId parses to that key. -/
theorem groupVals_ne_nil_iff (sel : List Str) (k : Str) :
    groupVals sel k ≠ [] ↔ ∃ fid ∈ sel, (parseFilterId fid).1 = k := by
  unfold groupVals
  rw [Ne, List.map_eq_nil_iff, List.filter_eq_nil_iff]
  push_neg
  simp

/-- Membership in a facet key's value group. -/
theorem mem_groupVals (sel : List Str) (k v : Str) :
    v ∈ groupVals sel k ↔
      ∃ fid ∈ sel, (parseFilterId fid).1 = k ∧ (parseFilterId fid).2 = v := by
  unfold groupVals
  simp [List.mem_map, List.mem_filter]
  tauto

/-- `applyFilters` with an empty query, unfolded to the facet-group test. -/
theorem mem_applyFilters_empty_query (datasets : List Dataset) (sel : List Str)
    (ds : Dataset) :
    ds ∈ applyFilters datasets sel [] ↔
      ds ∈ datasets ∧ (collectFilters sel).all (fun g => matchKey ds g.1 g.2) = true := by
  unfold applyFilters
  rw [List.mem_filter]
  simp

/-- Claim C1: with no text query, `applyFilters` admits a record exactly
when, for every facet key contributed by at least one selected FilterId,
some selected FilterId of that key matches the record (AND across
key-groups, OR within a group; a key with no selection constrains
nothing); in particular on records A (scene kitchen, robot arm1) and B
(scene kitchen, robot arm2), selecting `scene:kitchen` and `robot:arm1`
yields only A, while `scene:kitchen` alone yields A and B. -/
theorem applyFilters_facet_conjunction :
    (∀ (datasets : List Dataset) (sel : List Str) (ds : Dataset),
      ds ∈ applyFilters datasets sel [] ↔
        ds ∈ datasets ∧
        ∀ k : Str, (∃ fid ∈ sel, (parseFilterId fid).1 = k) →
          ∃ fid ∈ sel, (parseFilterId fid).1 = k ∧
            matchesValue ds k (parseFilterId fid).2 = true) ∧
    applyFilters [dsA, dsB]
        [mkFilterId "scene".data "kitchen".data, mkFilterId "robot".data "arm1".data]
        [] = [dsA] ∧
    applyFilters [dsA, dsB] [mkFilterId "scene".data "kitchen".data] [] = [dsA, dsB] := by
  refine ⟨?_, by decide, by decide⟩
  intro datasets sel ds
  rw [mem_applyFilters_empty_query]
  apply and_congr_right
  intro _
  rw [List.all_eq_true]
  constructor
  · intro hall k hk
    have hgv : groupVals sel k ≠ [] := (groupVals_ne_nil_iff sel k).mpr hk
    have hget : getGroup k (collectFilters sel) = some (groupVals sel k) := by
      rw [getGroup_collectFilters, if_neg hgv]
    have hmk := hall (k, groupVals sel k) (mem_of_getGroup _ _ _ hget)
    rw [matchKey_any_matchesValue] at hmk
    obtain ⟨v, hv, hmv⟩ := hmk
    obtain ⟨fid, hfid, hk1, hk2⟩ := (mem_groupVals sel k v).mp hv
    exact ⟨fid, hfid, hk1, by rw [hk2]; exact hmv⟩
  · intro hforall g hg
    have hget := getGroup_of_mem_nodup _ (collectFilters_keysNodup sel) g hg
    rw [getGroup_collectFilters] at hget
    by_cases hgv : groupVals sel g.1 = []
    · rw [if_pos hgv] at hget
      cases hget
    · rw [if_neg hgv] at hget
      have hget2 : groupVals sel g.1 = g.2 := by
        injection hget
      obtain ⟨fid, hfid, hmv⟩ :=
        hforall g.1 ((groupVals_ne_nil_iff _ _).mp hgv)
      rw [matchKey_any_matchesValue]
      refine ⟨(parseFilterId fid).2, ?_, hmv.2⟩
      rw [← hget2, mem_groupVals]
      exact ⟨fid, hfid, hmv.1, rfl⟩

/-- `Map.set` never produces an empty map. -/
theorem mapSet_ne_nil (m : List (Str × HNode)) (k : Str) (n : HNode) :
    mapSet m k n ≠ [] := by
  cases m with
  | nil => simp [mapSet]
  | cons hd tl =>
    obtain ⟨k', n'⟩ := hd
    by_cases h : k' = k <;> simp [mapSet, h]

/-- An entry of `mapSet m k n` is an old entry or carries the new node. -/
theorem mem_mapSet (m : List (Str × HNode)) (k : Str) (n : HNode)
    (p : Str × HNode) (hp : p ∈ mapSet m k n) : p ∈ m ∨ p.2 = n := by
  induction m with
  | nil =>
    simp [mapSet] at hp
    right
    rw [hp]
  | cons hd tl ih =>
    obtain ⟨k', n'⟩ := hd
    by_cases h : k' = k
    · simp only [mapSet, if_pos h] at hp
      rcases List.mem_cons.mp hp with h1 | h2
      · right
        rw [h1]
      · left
        exact List.mem_cons_of_mem _ h2
    · simp only [mapSet, if_neg h] at hp
      rcases List.mem_cons.mp hp with h1 | h2
      · left
        rw [h1]
        exact List.mem_cons_self _ _
      · rcases ih h2 with h3 | h3
        · left
          exact List.mem_cons_of_mem _ h3
        · right
          exact h3

/-- A successful `Map.get` comes from a member entry. -/
theorem mapGet_mem (m : List (Str × HNode)) (k : Str) (n : HNode)
    (h : mapGet m k = some n) : (k, n) ∈ m := by
  induction m with
  | nil => simp [mapGet] at h
  | cons hd tl ih =>
    obtain ⟨k', n'⟩ := hd
    by_cases hk : k' = k
    · subst hk
      simp [mapGet] at h
      subst h
      exact List.mem_cons_self _ _
    · simp only [mapGet, if_neg hk] at h
      exact List.mem_cons_of_mem _ (ih h)

/-- Threading a non-empty path never empties the map. -/
theorem addToHierarchy_ne_nil (m : List (Str × HNode)) (levels : List Str)
    (h : levels ≠ []) : addToHierarchy m levels ≠ [] := by
  cases levels with
  | nil => exact absurd rfl h
  | cons l rest =>
    cases hg : mapGet m l with
    | none =>
      rw [addToHierarchy, hg]
      exact mapSet_ne_nil _ _ _
    | some n =>
      rw [addToHierarchy, hg]
      exact mapSet_ne_nil _ _ _

/-- The children maps of an invariant node are invariant. -/
theorem NodeInv.children_inv {n : HNode} (h : NodeInv n) : MapInv n.children := by
  cases h with
  | mk children lf hchild hleaf => exact hchild

/-- An invariant node with no children carries `isLeaf = true`. -/
theorem NodeInv.leaf_of_nil {n : HNode} (h : NodeInv n) (hn : n.children = []) :
    n.isLeaf = true := by
  cases h with
  | mk children lf hchild hleaf => exact hleaf hn

/-- `addToHierarchy` preserves the children-empty-implies-leaf invariant. -/
theorem addToHierarchy_inv (levels : List Str) :
    ∀ (m : List (Str × HNode)), MapInv m → MapInv (addToHierarchy m levels) := by
  induction levels with
  | nil =>
    intro m hm
    exact hm
  | cons level rest ih =>
    intro m hm
    cases hg : mapGet m level with
    | some n =>
      rw [addToHierarchy, hg]
      intro p hp
      rcases mem_mapSet _ _ _ p hp with h1 | h2
      · exact hm p h1
      · rw [h2]
        have hn : NodeInv n := hm (level, n) (mapGet_mem _ _ _ hg)
        constructor
        · exact ih n.children hn.children_inv
        · intro hnil
          by_cases hrest : rest = []
          · subst hrest
            exact hn.leaf_of_nil hnil
          · exact absurd hnil (addToHierarchy_ne_nil _ _ hrest)
    | none =>
      rw [addToHierarchy, hg]
      intro p hp
      rcases mem_mapSet _ _ _ p hp with h1 | h2
      · exact hm p h1
      · rw [h2]
        constructor
        · exact ih [] (fun q hq => absurd hq (List.not_mem_nil q))
        · intro hnil
          by_cases hrest : rest = []
          · subst hrest
            rfl
          · exact absurd hnil (addToHierarchy_ne_nil _ _ hrest)

/-- Every tree the builder produces satisfies the invariant. -/
theorem buildObjectHierarchy_inv (paths : List (List Str)) :
    MapInv (buildObjectHierarchy paths) := by
  unfold buildObjectHierarchy
  have aux : ∀ (ps : List (List Str)) (m : List (Str × HNode)), MapInv m →
      MapInv (ps.foldl addToHierarchy m) := by
    intro ps
    induction ps with
    | nil =>
      intro m h
      exact h
    | cons p rest ih =>
      intro m h
      rw [List.foldl_cons]
      exact ih _ (addToHierarchy_inv p m h)
  exact aux paths [] (fun p hp => absurd hp (List.not_mem_nil p))

/-- Every node reachable in an invariant map is invariant. -/
theorem nodeInv_of_inTree {n : HNode} {m : List (Str × HNode)}
    (h : InTree n m) : MapInv m → NodeInv n := by
  induction h with
  | here k hk =>
    intro hm
    exact hm _ hk
  | deeper k hk hr ih =>
    intro hm
    exact ih (NodeInv.children_inv (hm _ hk))

/-- On an invariant node the leaf test `isLeaf || children.size === 0`
agrees with the plain `isLeaf`. -/
theorem leafTest_eq_isLeaf {n : HNode} (h : NodeInv n) :
    (n.isLeaf || n.children.isEmpty) = n.isLeaf := by
  cases h with
  | mk children lf hchild hleaf =>
    by_cases hc : children = []
    · subst hc
      simp [HNode.isLeaf, HNode.children, hleaf rfl]
    · have hie : children.isEmpty = false := by
        cases children with
        | nil => exact absurd rfl hc
        | cons a l => rfl
      simp [HNode.isLeaf, HNode.children, hie]

/-- On invariant maps the two bulk-select recursions compute the same
selection, for every parent path and starting selection. -/
theorem selectLeaf_eq_selectAll_aux (gk : Str) :
    ∀ (fuel : Nat) (m : List (Str × HNode)), sizeOf m ≤ fuel → MapInv m →
      ∀ (pp : Str) (sel : List Str),
        selectLeafNodesRecursive gk m pp sel = selectAllInHierarchy gk m pp sel := by
  intro fuel
  induction fuel with
  | zero =>
    intro m hsz hm pp sel
    cases m with
    | nil => simp [selectLeafNodesRecursive, selectAllInHierarchy]
    | cons hd tl =>
      simp [List.cons.sizeOf_spec] at hsz
  | succ f ih =>
    intro m hsz hm pp sel
    cases m with
    | nil => simp [selectLeafNodesRecursive, selectAllInHierarchy]
    | cons hd tl =>
      obtain ⟨value, node⟩ := hd
      obtain ⟨ch, lfb⟩ := node
      have hinv : NodeInv (HNode.mk ch lfb) := hm _ (List.mem_cons_self _ _)
      have hlt : (lfb || ch.isEmpty) = lfb := leafTest_eq_isLeaf hinv
      have hszch : sizeOf ch ≤ f := by
        simp [List.cons.sizeOf_spec, Prod.mk.sizeOf_spec, HNode.mk.sizeOf_spec] at hsz
        omega
      have hsztl : sizeOf tl ≤ f := by
        simp [List.cons.sizeOf_spec, Prod.mk.sizeOf_spec, HNode.mk.sizeOf_spec] at hsz
        omega
      have ihch : ∀ (pp2 : Str) (sel2 : List Str),
          selectLeafNodesRecursive gk ch pp2 sel2 = selectAllInHierarchy gk ch pp2 sel2 :=
        ih ch hszch hinv.children_inv
      have ihtl : ∀ (pp2 : Str) (sel2 : List Str),
          selectLeafNodesRecursive gk tl pp2 sel2 = selectAllInHierarchy gk tl pp2 sel2 :=
        ih tl hsztl (fun p hp => hm p (List.mem_cons_of_mem _ hp))
      simp only [selectLeafNodesRecursive, selectAllInHierarchy, hlt, ihch, ihtl]

/-- Claim C9: in every hierarchy tree the builder produces, a node with an
empty children map is leaf-flagged (so the recursive leaf test
`isLeaf || children.size === 0` agrees with the plain `isLeaf` on every
reachable node), and consequently `selectLeafNodesRecursive` selects
exactly what `selectAllInHierarchy` selects on such trees. -/
theorem hierarchy_empty_children_isLeaf (paths : List (List Str)) :
    (∀ n : HNode, InTree n (buildObjectHierarchy paths) →
      (n.isLeaf || n.children.isEmpty) = n.isLeaf) ∧
    ∀ (gk pp : Str) (sel : List Str),
      selectLeafNodesRecursive gk (buildObjectHierarchy paths) pp sel =
        selectAllInHierarchy gk (buildObjectHierarchy paths) pp sel := by
  have hinv := buildObjectHierarchy_inv paths
  constructor
  · intro n hn
    exact leafTest_eq_isLeaf (nodeInv_of_inTree hn hinv)
  · intro gk pp sel
    exact selectLeaf_eq_selectAll_aux gk (sizeOf (buildObjectHierarchy paths))
      (buildObjectHierarchy paths) le_rfl hinv pp sel

/-- Claim C9 witness on the tree built from the single path `["a"]`: the
node at `a` has empty children and passes both leaf tests identically, and
the two bulk-select recursions agree. -/
theorem hierarchy_empty_children_isLeaf_witness :
    ((HNode.mk [] true).isLeaf || (HNode.mk [] true).children.isEmpty) =
      (HNode.mk [] true).isLeaf ∧
    selectLeafNodesRecursive "object".data (buildObjectHierarchy [[['a']]]) [] [] =
      selectAllInHierarchy "object".data (buildObjectHierarchy [[['a']]]) [] [] := by
  constructor
  · exact (hierarchy_empty_children_isLeaf [[['a']]]).1 (HNode.mk [] true)
      (InTree.here ['a'] (List.mem_singleton_self _))
  · exact (hierarchy_empty_children_isLeaf [[['a']]]).2 "object".data [] []

end RoboVis
